import Mathlib

/-!
Verification development for the LLMInferenceService chat front-end.

The definitions below are a shallow embedding of the stream-consuming
loops of `src/chat_interface/src/components/StreamChat.js` (the file holds
two variants of the component: a token-based loop, called V1 below, and a
content-based loop, called V2 below) and of the markup sanitizer of
`src/chat_interface/src/components/MessageContent.jsx`
(`fixIncompleteMarkdown`, `wrapBareLatex`, `processContent`).

Bytes are modelled as `List Nat`, text as `List Char` (with `String` at
the API surface where the source works with already-decoded text).
-/

namespace LLMIS

/-- Whitespace as used by JavaScript `\s`, `String.prototype.trim` and
`String.prototype.startsWith`-adjacent trimming in the sources (ASCII set
plus no-break space; the sources only ever meet the ASCII ones). -/
def jsWs (c : Char) : Bool :=
  [' ', '\t', '\n', '\r', '\x0b', '\x0c', '\xa0'].contains c

/-- `\d`: the code points of `0`–`9`. -/
def isDigit (c : Char) : Bool :=
  48 ≤ c.toNat && c.toNat ≤ 57

/-- `[a-zA-Z]`: the code points of the ASCII letters. -/
def isAlpha (c : Char) : Bool :=
  (97 ≤ c.toNat && c.toNat ≤ 122) || (65 ≤ c.toNat && c.toNat ≤ 90)

def isWord (c : Char) : Bool := isAlpha c || isDigit c || c = '_'

/-- JavaScript `String.prototype.trim` on a character list. -/
def jsTrim (s : List Char) : List Char :=
  ((s.dropWhile jsWs).reverse.dropWhile jsWs).reverse

/-- ASCII bytes of a string (the wire data in all scenarios is ASCII). -/
def asciiBytes (s : String) : List Nat := s.data.map Char.toNat

/-! ## FrameDecoder

`StreamChat.js` lines 55–65 (V1) and 354–364 (V2): the response body is
read chunk by chunk, decoded with a streaming `TextDecoder` (which keeps
undecoded trailing bytes of a split multi-byte character for the next
chunk), appended to a pending `buffer`, split on `"\n"`, and the final
fragment is popped back into `buffer`.

The `TextDecoder` itself is platform code, not part of the repository.
Modelled from the spec: "decode the chunk using a streaming-safe character
decoder (must correctly handle a multi-byte character split across two
chunks — the decoder keeps undecoded trailing bytes for the next chunk
rather than emitting replacement characters)" (spec §4.1). -/

/-- Length of the UTF-8 sequence announced by a leading byte
(`none` for an invalid leading byte). -/
def utf8SeqLen (b : Nat) : Option Nat :=
  if b < 0x80 then some 1
  else if b < 0xC0 then none
  else if b < 0xE0 then some 2
  else if b < 0xF0 then some 3
  else if b < 0xF8 then some 4
  else none

/-- Assemble the character encoded by one complete UTF-8 sequence. -/
def utf8CharOf : List Nat → Char
  | [b] => Char.ofNat b
  | [b, c] => Char.ofNat ((b % 0x20) * 0x40 + c % 0x40)
  | [b, c, d] => Char.ofNat (((b % 0x10) * 0x40 + c % 0x40) * 0x40 + d % 0x40)
  | [b, c, d, e] =>
      Char.ofNat ((((b % 0x8) * 0x40 + c % 0x40) * 0x40 + d % 0x40) * 0x40 + e % 0x40)
  | _ => Char.ofNat 0xFFFD

/-- Streaming UTF-8 decode (fuel-indexed; the fuel only bounds the
recursion and is irrelevant once it covers the input length): emit the
characters of every complete sequence, keep a trailing incomplete
sequence as pending bytes. -/
def decodeCharsAux : Nat → List Nat → List Char × List Nat
  | 0, bs => ([], bs)
  | _ + 1, [] => ([], [])
  | fuel + 1, b :: rest =>
    match utf8SeqLen b with
    | none =>
        ((Char.ofNat 0xFFFD) :: (decodeCharsAux fuel rest).1, (decodeCharsAux fuel rest).2)
    | some n =>
        if n ≤ rest.length + 1 then
          ((utf8CharOf (b :: rest.take (n - 1))) :: (decodeCharsAux fuel (rest.drop (n - 1))).1,
            (decodeCharsAux fuel (rest.drop (n - 1))).2)
        else ([], b :: rest)

def decodeChars (bs : List Nat) : List Char × List Nat := decodeCharsAux bs.length bs

/-- `buffer.split("\n")` followed by `buffer = lines.pop() || ""`:
the complete (newline-terminated) lines, and the trailing fragment. -/
def splitLines : List Char → List (List Char) × List Char
  | [] => ([], [])
  | c :: t =>
    if c = '\n' then ([] :: (splitLines t).1, (splitLines t).2)
    else
      match (splitLines t).1 with
      | [] => ([], c :: (splitLines t).2)
      | l :: ls => ((c :: l) :: ls, (splitLines t).2)

/-- Decoder state: pending undecoded bytes and the pending line fragment. -/
structure DecState where
  pend : List Nat
  buf : List Char
deriving DecidableEq, Repr

def initDecState : DecState := ⟨[], []⟩

/-- One iteration of the `while` loop of `handleSubmit` restricted to frame
reassembly (StreamChat.js lines 63–65 / 362–364): decode the chunk, append
to the buffer, split off the complete lines, keep the fragment. -/
def feedChunk (s : DecState) (chunk : List Nat) : DecState × List (List Char) :=
  ((⟨(decodeChars (s.pend ++ chunk)).2,
     (splitLines (s.buf ++ (decodeChars (s.pend ++ chunk)).1)).2⟩ : DecState),
   (splitLines (s.buf ++ (decodeChars (s.pend ++ chunk)).1)).1)

/-- Frame reassembly over a whole chunk sequence, collecting every
complete logical line in order. -/
def feedAll (s : DecState) : List (List Nat) → DecState × List (List Char)
  | [] => (s, [])
  | c :: cs =>
    ((feedAll (feedChunk s c).1 cs).1,
     (feedChunk s c).2 ++ (feedAll (feedChunk s c).1 cs).2)

/-- The logical lines the decoding loop processes for a chunk sequence. -/
def emittedLines (chunks : List (List Nat)) : List (List Char) :=
  (feedAll initDecState chunks).2

/-! ## EventParser payload decoding

The loops call the platform `JSON.parse` on each data payload and read the
fields `token` / `content` / `is_finished` with JavaScript truthiness.
`JSON.parse` is platform code, not part of the repository. Modelled from
the spec: "attempt to decode it as a structured payload; on decode failure
→ Ignored" with "structured (JSON) payload" fields per spec §6 — the model
below is a standard JSON recursive-descent decoder (numeric values are
kept as their integer part, which the loops never consume as text). -/

inductive JsonValue where
  | null
  | bool (b : Bool)
  | num (i : Int)
  | str (s : String)
  | arr (xs : List JsonValue)
  | obj (kvs : List (String × JsonValue))

/-- JSON whitespace (RFC 8259). -/
def jsonWs (c : Char) : Bool := [' ', '\t', '\n', '\r'].contains c

def skipWs (s : List Char) : List Char := s.dropWhile jsonWs

def hexDigitVal (c : Char) : Option Nat :=
  if isDigit c then some (c.toNat - 48)
  else if 97 ≤ c.toNat && c.toNat ≤ 102 then some (c.toNat - 87)
  else if 65 ≤ c.toNat && c.toNat ≤ 70 then some (c.toNat - 55)
  else none

/-- The simple escapes of a JSON string literal, as source/target pairs. -/
def escPairs : List (Char × Char) :=
  [('"', '"'), ('\\', '\\'), ('/', '/'), ('b', '\x08'), ('f', '\x0c'),
   ('n', '\n'), ('r', '\r'), ('t', '\t')]

/-- Four hex digits after a `\u` escape. -/
def hex4 : List Char → Option (Nat × List Char)
  | a :: b :: c :: d :: r2 =>
    (match hexDigitVal a, hexDigitVal b, hexDigitVal c, hexDigitVal d with
     | some x, some y, some z, some w => some (((x * 16 + y) * 16 + z) * 16 + w, r2)
     | _, _, _, _ => none)
  | _ => none

/-- Body of a JSON string literal, after the opening quote. -/
def parseStrChars : Nat → List Char → Option (List Char × List Char)
  | 0, _ => none
  | _ + 1, [] => none
  | _ + 1, '"' :: r => some ([], r)
  | fuel + 1, '\\' :: e :: r =>
    if e = 'u' then
      match hex4 r with
      | some (n, r2) =>
          (parseStrChars fuel r2).map fun p => (Char.ofNat n :: p.1, p.2)
      | none => none
    else
      match escPairs.find? (fun pc => pc.1 = e) with
      | some pc => (parseStrChars fuel r).map fun p => (pc.2 :: p.1, p.2)
      | none => none
  | fuel + 1, c :: r =>
    if c.toNat < 0x20 then none
    else (parseStrChars fuel r).map fun p => (c :: p.1, p.2)

def digitsToNat (ds : List Char) : Nat :=
  ds.foldl (fun a c => a * 10 + (c.toNat - '0'.toNat)) 0

/-- A JSON number: `-? int frac? exp?`; the stored value keeps the sign
and the integer part (the loops never use a numeric field as text). -/
def parseNum (s : List Char) : Option (JsonValue × List Char) :=
  let neg := match s with | '-' :: _ => true | _ => false
  let s1 := match s with | '-' :: r => r | _ => s
  let ds := s1.takeWhile isDigit
  let s2 := s1.dropWhile isDigit
  if ds = [] then none
  else if 1 < ds.length ∧ ds.headI = '0' then none
  else
    let afterFrac : Option (List Char) :=
      match s2 with
      | '.' :: r => if r.takeWhile isDigit = [] then none else some (r.dropWhile isDigit)
      | _ => some s2
    match afterFrac with
    | none => none
    | some s3 =>
      let afterExp : Option (List Char) :=
        match s3 with
        | 'e' :: r | 'E' :: r =>
          let r1 := match r with | '+' :: r2 => r2 | '-' :: r2 => r2 | _ => r
          if r1.takeWhile isDigit = [] then none else some (r1.dropWhile isDigit)
        | _ => some s3
      match afterExp with
      | none => none
      | some s4 =>
        let v : Int := Int.ofNat (digitsToNat ds)
        some (.num (if neg then -v else v), s4)

mutual

def parseValue : Nat → List Char → Option (JsonValue × List Char)
  | 0, _ => none
  | fuel + 1, s =>
    match skipWs s with
    | 'n' :: 'u' :: 'l' :: 'l' :: r => some (.null, r)
    | 't' :: 'r' :: 'u' :: 'e' :: r => some (.bool true, r)
    | 'f' :: 'a' :: 'l' :: 's' :: 'e' :: r => some (.bool false, r)
    | '"' :: r => (parseStrChars (r.length + 1) r).map fun p => (.str (String.mk p.1), p.2)
    | '[' :: r =>
      (match skipWs r with
       | ']' :: r2 => some (.arr [], r2)
       | _ => (parseElems fuel r).map fun p => (.arr p.1, p.2))
    | '{' :: r =>
      (match skipWs r with
       | '}' :: r2 => some (.obj [], r2)
       | _ => (parseMembers fuel r).map fun p => (.obj p.1, p.2))
    | r => parseNum r

def parseElems : Nat → List Char → Option (List JsonValue × List Char)
  | 0, _ => none
  | fuel + 1, s =>
    match parseValue fuel s with
    | none => none
    | some (v, r) =>
      match skipWs r with
      | ',' :: r2 => (parseElems fuel r2).map fun p => (v :: p.1, p.2)
      | ']' :: r2 => some ([v], r2)
      | _ => none

def parseMembers : Nat → List Char → Option (List (String × JsonValue) × List Char)
  | 0, _ => none
  | fuel + 1, s =>
    match skipWs s with
    | '"' :: r =>
      match parseStrChars (r.length + 1) r with
      | none => none
      | some (k, r2) =>
        match skipWs r2 with
        | ':' :: r3 =>
          match parseValue fuel r3 with
          | none => none
          | some (v, r4) =>
            match skipWs r4 with
            | ',' :: r5 => (parseMembers fuel r5).map fun p => ((String.mk k, v) :: p.1, p.2)
            | '}' :: r5 => some ([(String.mk k, v)], r5)
            | _ => none
        | _ => none
    | _ => none

end

/-- `JSON.parse`: parse one value and require only whitespace after it. -/
def jsonParse (s : List Char) : Option JsonValue :=
  match parseValue (s.length + 1) s with
  | some (v, r) => if skipWs r = [] then some v else none
  | none => none

/-- Property read `obj.k` (JSON.parse keeps the last duplicate key). -/
def jsField : JsonValue → String → Option JsonValue
  | .obj kvs, k => (kvs.reverse.find? (fun kv => kv.1 = k)).map (·.2)
  | _, _ => none

/-- JavaScript truthiness of `obj.k` (absent property is `undefined`). -/
def jsTruthy : Option JsonValue → Bool
  | none => false
  | some .null => false
  | some (.bool b) => b
  | some (.num i) => decide (i ≠ 0)
  | some (.str s) => decide (s ≠ "")
  | some (.arr _) => true
  | some (.obj _) => true

/-- JavaScript string coercion as used by `content + token` (the backend
fields are strings; the non-string cases are the standard coercions, with
arrays approximated by the empty join they produce when empty). -/
def jsToString : JsonValue → String
  | .str s => s
  | .num i => toString i
  | .bool true => "true"
  | .bool false => "false"
  | .null => "null"
  | .arr _ => ""
  | .obj _ => "[object Object]"

/-! ## The V1 (token-based) consuming loop

StreamChat.js lines 67–101: trim the line, skip blank lines, strip an
optional `data: ` prefix (treating `[DONE]` as a line to skip), parse the
payload, append a truthy `token` field, and `break` out of the per-chunk
`for` loop when `is_finished` is truthy. -/

def v1IsData (line : List Char) : Bool := ("data: ".data).isPrefixOf (jsTrim line)

/-- The text handed to `JSON.parse` for a line (lines 72–76). -/
def v1Payload (line : List Char) : List Char :=
  if v1IsData line then jsTrim ((jsTrim line).drop 6) else jsTrim line

/-- StreamChat.js lines 81–92: the delta a successfully decoded V1
payload contributes (`parsed.token || ""`, appended only when truthy). -/
def deltaOfParsedV1 (v : JsonValue) : Option String :=
  match jsField v "token" with
  | some tv => if jsTruthy (some tv) then some (jsToString tv) else none
  | none => none

/-- StreamChat.js lines 372–383: the delta a successfully decoded V2
payload contributes (`parsed.content || ""`, appended only when truthy). -/
def deltaOfParsedV2 (v : JsonValue) : Option String :=
  match jsField v "content" with
  | some cv => if jsTruthy (some cv) then some (jsToString cv) else none
  | none => none

/-- Whether a V1 line carries a truthy `is_finished` flag (line 95). -/
def v1Finished (line : List Char) : Bool :=
  match jsonParse (v1Payload line) with
  | some v => jsTruthy (jsField v "is_finished")
  | none => false

/-- The `for (const line of lines)` body of the V1 loop (lines 67–101);
`break` on a truthy `is_finished` abandons the remaining lines of the
current chunk only. -/
def processLinesV1 : List (List Char) → String → String
  | [], content => content
  | line :: ls, content =>
    if jsTrim line = [] then processLinesV1 ls content
    else if v1IsData line && v1Payload line = "[DONE]".data then processLinesV1 ls content
    else
      match jsonParse (v1Payload line) with
      | none => processLinesV1 ls content
      | some v =>
        let content1 :=
          match deltaOfParsedV1 v with
          | some d => content ++ d
          | none => content
        if jsTruthy (jsField v "is_finished") then content1
        else processLinesV1 ls content1

/-- The whole V1 `while` loop over the chunk sequence: the decoder state
is threaded across chunks, the `break` is not (it only exits the inner
`for`). -/
def runV1 (chunks : List (List Nat)) : String :=
  (chunks.foldl (fun st c =>
    ((feedChunk st.1 c).1, processLinesV1 (feedChunk st.1 c).2 st.2))
    (initDecState, "")).2

/-! ## The V2 (content-based) consuming loop

StreamChat.js lines 366–388: only `data: `-prefixed lines are considered,
`[DONE]` is skipped, the payload is parsed and a truthy `content` field is
appended; there is no finished-flag check and no `break`. -/

/-- The delta a single line contributes in the V2 loop (lines 366–383),
`none` when the line is ignored. -/
def lineDeltaV2 (line : List Char) : Option String :=
  if ("data: ".data).isPrefixOf line then
    let data := jsTrim (line.drop 6)
    if data = "[DONE]".data then none
    else
      match jsonParse data with
      | none => none
      | some v => deltaOfParsedV2 v
  else none

/-- The `for (const line of lines)` body of the V2 loop. -/
def processLineV2 (content : String) (line : List Char) : String :=
  match lineDeltaV2 line with
  | some d => content ++ d
  | none => content

def processLinesV2 (ls : List (List Char)) (content : String) : String :=
  ls.foldl processLineV2 content

/-- The whole V2 `while` loop over the chunk sequence. -/
def runV2 (chunks : List (List Nat)) : String :=
  (chunks.foldl (fun st c =>
    ((feedChunk st.1 c).1, processLinesV2 (feedChunk st.1 c).2 st.2))
    (initDecState, "")).2

/-- The sequence of content deltas the V2 loop applies. -/
def deltasV2 (chunks : List (List Nat)) : List String :=
  (emittedLines chunks).filterMap lineDeltaV2

/-! ## Conversation messages and turn finalisation

StreamChat.js lines 40–43 create the user message and the empty assistant
placeholder; lines 103–117 handle the end of the turn: an `AbortError`
returns without touching the messages, any other error replaces the last
message's content with a fixed notice, and `finally` clears the streaming
flag in every case. -/

structure ChatMsg where
  role : String
  content : String
deriving DecidableEq, Repr

/-- The fixed user-visible failure notice (StreamChat.js line 110). -/
def failNotice : String := "Sorry, something wrong happen. Please try again"

/-- `newMessages[newMessages.length - 1] = { ...last, content: s }`. -/
def setLastContent : List ChatMsg → String → List ChatMsg
  | [], _ => []
  | [m], s => [{ m with content := s }]
  | m :: rest, s => m :: setLastContent rest s

inductive TurnEnd where
  | completed
  | aborted
  | failed
deriving DecidableEq, Repr

/-- Lines 103–117: the messages after the `catch`/`finally` stage, with
the streaming flag (always cleared by `finally`). -/
def finishTurn (msgs : List ChatMsg) : TurnEnd → List ChatMsg × Bool
  | .completed => (msgs, false)
  | .aborted => (msgs, false)
  | .failed => (setLastContent msgs failNotice, false)

/-! ## MarkupSanitizer

`MessageContent.jsx`: `fixIncompleteMarkdown` (lines 12–44),
`wrapBareLatex` (lines 47–128), `processContent` (lines 131–145).
Each regex of the source is embedded as an explicit scanner with the exact
left-to-right, lazy/greedy and lookbehind semantics of the JavaScript
pattern; the placeholder-restoring `String.prototype.replace(search,
replacement)` calls follow ECMA-262 `GetSubstitution` (so `$$`, `$&`,
`` $` `` and `$'` in a restored block are substitution patterns). -/

/-- `str.match(/```/g)` count: non-overlapping occurrences of three
backticks. -/
def fenceCount : List Char → Nat
  | '`' :: '`' :: '`' :: t => fenceCount t + 1
  | _ :: t => fenceCount t
  | [] => 0

/-- `str.match(/`/g)` count. -/
def tickCount : List Char → Nat
  | '`' :: t => tickCount t + 1
  | _ :: t => tickCount t
  | [] => 0

/-- `str.match(/\$\$/g)` count: non-overlapping `$$` occurrences. -/
def dollar2Count : List Char → Nat
  | '$' :: '$' :: t => dollar2Count t + 1
  | _ :: t => dollar2Count t
  | [] => 0

/-- `str.match(/(?<!\$)\$(?!\$)/g)` count: `$` neither preceded nor
followed by `$`; `prevDollar` tells whether the previous char was `$`. -/
def loneDollarCountAux (prevDollar : Bool) : List Char → Nat
  | [] => 0
  | '$' :: t =>
    (match t with
     | '$' :: _ => loneDollarCountAux true t
     | _ => (if prevDollar then 0 else 1) + loneDollarCountAux true t)
  | _ :: t => loneDollarCountAux false t

def loneDollarCount (s : List Char) : Nat := loneDollarCountAux false s

/-- Index of the first occurrence of `tok` as a sublist. -/
def subIdx (tok : List Char) : List Char → Option Nat
  | [] => if tok = [] then some 0 else none
  | s@(_ :: t) =>
    if tok.isPrefixOf s then some 0
    else (subIdx tok t).map (· + 1)

/-- `str.replace(/TOK[\s\S]*?TOK/g, "")`: remove every lazily matched
`TOK … TOK` span, scanning left to right. -/
def removePairsAux (tok : List Char) : Nat → List Char → List Char
  | 0, s => s
  | fuel + 1, s =>
    match subIdx tok s with
    | none => s
    | some p =>
      match subIdx tok (s.drop (p + tok.length)) with
      | none => s
      | some q =>
        s.take p ++
          removePairsAux tok fuel ((s.drop (p + tok.length)).drop (q + tok.length))

def removePairs (tok s : List Char) : List Char := removePairsAux tok s.length s

/-- `fixIncompleteMarkdown` (MessageContent.jsx lines 12–44): append one
closing delimiter for every family whose occurrence count is odd; the
inline-code count is taken after removing complete fenced blocks and the
inline-math count after removing complete `$$ … $$` spans. -/
def fixIncompleteMarkdown (content : List Char) : List Char :=
  if content = [] then []
  else
    let f1 := if fenceCount content % 2 ≠ 0 then content ++ "\n```".data else content
    let f2 := if tickCount (removePairs "```".data f1) % 2 ≠ 0 then f1 ++ "`".data else f1
    let f3 := if dollar2Count f2 % 2 ≠ 0 then f2 ++ "$$".data else f2
    if loneDollarCount (removePairs "$$".data f3) % 2 ≠ 0 then f3 ++ "$".data else f3

/-- `` `__CODE_BLOCK_${i}__` `` / `` `__MATH_BLOCK_${i}__` ``. -/
def placeholder (tag : List Char) (i : Nat) : List Char :=
  "__".data ++ tag ++ "_".data ++ (toString i).data ++ "__".data

/-- `result.replace(/TOK[\s\S]*?TOK/g, take)` with `take` pushing the
match and returning the next placeholder; returns the rewritten text and
the pushed blocks in order. -/
def extractPairsAux (tok tag : List Char) : Nat → Nat → List Char → List Char × List (List Char)
  | 0, _, s => (s, [])
  | fuel + 1, idx, s =>
    match subIdx tok s with
    | none => (s, [])
    | some p =>
      match subIdx tok (s.drop (p + tok.length)) with
      | none => (s, [])
      | some q =>
        let r := extractPairsAux tok tag fuel (idx + 1)
          ((s.drop (p + tok.length)).drop (q + tok.length))
        (s.take p ++ placeholder tag idx ++ r.1,
         ((s.drop p).take (tok.length + q + tok.length)) :: r.2)

/-- `result.replace(/D[^D]+D/g, take)` for a one-character delimiter `D`:
a delimiter, at least one other character, a delimiter. -/
def extractInlineAux (d : Char) (tag : List Char) : Nat → Nat → List Char → List Char × List (List Char)
  | 0, _, s => (s, [])
  | fuel + 1, idx, s =>
    match subIdx [d] s with
    | none => (s, [])
    | some p =>
      match subIdx [d] (s.drop (p + 1)) with
      | none => (s, [])
      | some q =>
        if q = 0 then
          let r := extractInlineAux d tag fuel idx (s.drop (p + 1))
          (s.take (p + 1) ++ r.1, r.2)
        else
          let r := extractInlineAux d tag fuel (idx + 1) (s.drop (p + 1 + q + 1))
          (s.take p ++ placeholder tag idx ++ r.1,
           ((s.drop p).take (q + 2)) :: r.2)

/-- Rules at lines 82 and 87: `\[ … \]` → `$$ … $$` and `\( … \)` →
`$ … $` (lazy close, function replacement with trimmed group). -/
def ruleBsPairAux (opn cls wrapD : List Char) : Nat → List Char → List Char
  | 0, s => s
  | fuel + 1, s =>
    match subIdx opn s with
    | none => s
    | some p =>
      match subIdx cls (s.drop (p + 2)) with
      | none => s
      | some q =>
        s.take p ++ wrapD ++ jsTrim ((s.drop (p + 2)).take q) ++ wrapD ++
          ruleBsPairAux opn cls wrapD fuel (s.drop (p + 2 + q + 2))

/-- First index of `[` or `]`, with the bracket found. -/
def bracketIdx : List Char → Option (Nat × Char)
  | [] => none
  | c :: t =>
    if c = '[' ∨ c = ']' then some (0, c)
    else (bracketIdx t).map (fun p => (p.1 + 1, p.2))

/-- A backslash immediately followed by an ASCII letter occurs (both
inside the list). -/
def hasBsLetter : List Char → Bool
  | '\\' :: c :: t => isAlpha c || hasBsLetter (c :: t)
  | _ :: t => hasBsLetter t
  | [] => false

/-- Rule at line 92: `/\[\s*([^\[\]]*?\\[a-zA-Z]+[^\[\]]*?)\s*]/g` →
`$ trimmed-inner $`: a bracket pair with no nested bracket whose body
holds a backslash-command token. -/
def ruleBracketAux : Nat → List Char → List Char
  | 0, s => s
  | fuel + 1, s =>
    match subIdx ['['] s with
    | none => s
    | some p =>
      match bracketIdx (s.drop (p + 1)) with
      | none => s
      | some (q, br) =>
        if br = '[' then
          s.take (p + 1 + q) ++ ruleBracketAux fuel (s.drop (p + 1 + q))
        else if hasBsLetter ((s.drop (p + 1)).take q) then
          s.take p ++ "$".data ++ jsTrim ((s.drop (p + 1)).take q) ++ "$".data ++
            ruleBracketAux fuel (s.drop (p + 1 + q + 1))
        else
          s.take (p + 1) ++ ruleBracketAux fuel (s.drop (p + 1))

def cmds7 : List (List Char) :=
  ["times".data, "cdot".data, "div".data, "pm".data, "mp".data, "frac".data, "sqrt".data]

def cmds3 : List (List Char) := ["times".data, "cdot".data, "div".data]

def cmds2 : List (List Char) := ["times".data, "cdot".data]

/-- The command word of `cmds` that `s` starts with, if any. -/
def cmdAt (cmds : List (List Char)) (s : List Char) : Option (List Char) :=
  cmds.find? (fun c => c.isPrefixOf s)

/-- First index of a `\` directly followed by a whitespace character. -/
def bsWsIdx : List Char → Option Nat
  | '\\' :: c :: t =>
    if jsWs c then some 0 else (bsWsIdx (c :: t)).map (· + 1)
  | _ :: t => (bsWsIdx t).map (· + 1)
  | [] => none

/-- The closing backslash of rule 99 (`/\\\s+([^\\]*?(?:\\(?:times|cdot|
div|pm|mp|frac|sqrt)[^\\]*?)+)\s*\\/g`) for a walk starting at `pos`: the
backtracking engine closes at the next backslash unless it directly
continues another command iteration that can still be closed later. -/
def ruleBsWalk (s : List Char) : Nat → Nat → Option Nat
  | 0, _ => none
  | fuel + 1, pos =>
    match subIdx ['\\'] (s.drop pos) with
    | none => none
    | some brel =>
      if (((s.drop pos).take brel).reverse.takeWhile jsWs).length ≠ 0 then
        some (pos + brel)
      else
        match cmdAt cmds7 (s.drop (pos + brel + 1)) with
        | none => some (pos + brel)
        | some c =>
          if (subIdx ['\\'] (s.drop (pos + brel + 1 + c.length))).isSome then
            ruleBsWalk s fuel (pos + brel + 1 + c.length)
          else some (pos + brel)

/-- Rule at line 99: `\ … \` wrapping with at least one command token. -/
def ruleBsWrappedAux : Nat → List Char → List Char
  | 0, s => s
  | fuel + 1, s =>
    match bsWsIdx s with
    | none => s
    | some i =>
      match subIdx ['\\'] (s.drop (i + 2)) with
      | none => s
      | some b1 =>
        match cmdAt cmds7 (s.drop (i + 2 + b1 + 1)) with
        | none => s.take (i + 1) ++ ruleBsWrappedAux fuel (s.drop (i + 1))
        | some c1 =>
          match ruleBsWalk s (s.length + 1) (i + 2 + b1 + 1 + c1.length) with
          | none => s.take (i + 1) ++ ruleBsWrappedAux fuel (s.drop (i + 1))
          | some close =>
            s.take i ++ "$".data ++ jsTrim ((s.drop (i + 1)).take (close - (i + 1))) ++
              "$".data ++ ruleBsWrappedAux fuel (s.drop (close + 1))

def takeDigitsLen (s : List Char) : Nat := (s.takeWhile isDigit).length

def takeWsLen (s : List Char) : Nat := (s.takeWhile jsWs).length

/-- One `\cmd \s* \d+ \s*` iteration at the head of `s`: consumed length. -/
def arithStep (cmds : List (List Char)) (s : List Char) : Option Nat :=
  match s with
  | '\\' :: r =>
    match cmdAt cmds r with
    | none => none
    | some c =>
      let w1 := takeWsLen (r.drop c.length)
      let d := takeDigitsLen ((r.drop c.length).drop w1)
      if d = 0 then none
      else
        some (1 + c.length + w1 + d +
          takeWsLen (((r.drop c.length).drop w1).drop d))
  | _ => none

/-- Greedy repetition of `arithStep`: total consumed length. -/
def arithIters (cmds : List (List Char)) : Nat → List Char → Nat
  | 0, _ => 0
  | fuel + 1, s =>
    match arithStep cmds s with
    | none => 0
    | some k => k + arithIters cmds fuel (s.drop k)

/-- The optional `(?:=\s*\d+)?` tail: consumed length (0 when absent). -/
def eqTailLen (s : List Char) : Nat :=
  match s with
  | '=' :: r =>
    let w := takeWsLen r
    let d := takeDigitsLen (r.drop w)
    if d = 0 then 0 else 1 + w + d
  | _ => 0

/-- Match length of rule 106 (`\d+\s*(?:\\(?:times|cdot|div)\s*\d+\s*)+
(?:=\s*\d+)?`) anchored at the head of `s`. -/
def arithMatch (s : List Char) : Option Nat :=
  let d0 := takeDigitsLen s
  let w0 := takeWsLen (s.drop d0)
  let it := arithIters cmds3 (s.drop (d0 + w0)).length (s.drop (d0 + w0))
  if d0 = 0 ∨ it = 0 then none
  else some (d0 + w0 + it + eqTailLen (s.drop (d0 + w0 + it)))

/-- Match length of rule 112 (`\w+!\s*=\s*\d+\s*(?:\\(?:times|cdot)\s*
\d+\s*)+(?:=\s*\d+)?`) anchored at the head of `s`. -/
def factMatch (s : List Char) : Option Nat :=
  let w0 := (s.takeWhile isWord).length
  if w0 = 0 then none
  else
    match s.drop w0 with
    | '!' :: r1 =>
      let a := takeWsLen r1
      (match r1.drop a with
       | '=' :: r2 =>
         let b := takeWsLen r2
         let d := takeDigitsLen (r2.drop b)
         if d = 0 then none
         else
           let e := takeWsLen ((r2.drop b).drop d)
           let rest := (((r2.drop b).drop d).drop e)
           let it := arithIters cmds2 rest.length rest
           if it = 0 then none
           else some (w0 + 1 + a + 1 + b + d + e + it + eqTailLen (rest.drop it))
       | _ => none)
    | _ => none

/-- `(?<![\\$`])`: the character before the match position. -/
def lookbehindOk (prev : Option Char) : Bool :=
  match prev with
  | none => true
  | some p => ¬(p = '\\' ∨ p = '$' ∨ p = '`')

/-- Rule at line 106, scanning with the previous original character for
the lookbehind; on a match the scan resumes after the matched text. -/
def ruleArithAux : Nat → Option Char → List Char → List Char
  | 0, _, s => s
  | _ + 1, _, [] => []
  | fuel + 1, prev, c :: t =>
    if isDigit c ∧ lookbehindOk prev then
      match arithMatch (c :: t) with
      | some len =>
          "$".data ++ jsTrim ((c :: t).take len) ++ "$".data ++
            ruleArithAux fuel ((c :: t).take len).getLast? ((c :: t).drop len)
      | none => c :: ruleArithAux fuel (some c) t
    else c :: ruleArithAux fuel (some c) t

/-- Rule at line 112, scanning like `ruleArithAux`. -/
def ruleFactAux : Nat → Option Char → List Char → List Char
  | 0, _, s => s
  | _ + 1, _, [] => []
  | fuel + 1, prev, c :: t =>
    if isWord c ∧ lookbehindOk prev then
      match factMatch (c :: t) with
      | some len =>
          "$".data ++ jsTrim ((c :: t).take len) ++ "$".data ++
            ruleFactAux fuel ((c :: t).take len).getLast? ((c :: t).drop len)
      | none => c :: ruleFactAux fuel (some c) t
    else c :: ruleFactAux fuel (some c) t

/-- ECMA-262 `GetSubstitution` for a string search (no capture groups):
`$$`, `$&`, `` $` `` and `$'` are substitution patterns, everything else
is literal. `matched` is the search string, `pre`/`post` the text around
the match. -/
def getSubstitutionAux (matched pre post : List Char) : List Char → List Char
  | [] => []
  | '$' :: d :: r =>
    if d = '$' then '$' :: getSubstitutionAux matched pre post r
    else if d = '&' then matched ++ getSubstitutionAux matched pre post r
    else if d = '`' then pre ++ getSubstitutionAux matched pre post r
    else if d = '\'' then post ++ getSubstitutionAux matched pre post r
    else '$' :: getSubstitutionAux matched pre post (d :: r)
  | c :: r => c :: getSubstitutionAux matched pre post r

/-- `String.prototype.replace(searchString, replString)`: first
occurrence only, replacement via `GetSubstitution`. -/
def jsReplaceFirst (s search repl : List Char) : List Char :=
  match subIdx search s with
  | none => s
  | some p =>
    s.take p ++
      getSubstitutionAux search (s.take p) (s.drop (p + search.length)) repl ++
      s.drop (p + search.length)

/-- The restore loops of lines 118–125: `result.replace(placeholder,
block)` for each stored block in index order. -/
def restoreBlocks (tag : List Char) : List (List Char) → Nat → List Char → List Char
  | [], _, s => s
  | b :: rest, i, s => restoreBlocks tag rest (i + 1) (jsReplaceFirst s (placeholder tag i) b)

/-- `wrapBareLatex` (MessageContent.jsx lines 47–128). -/
def wrapBareLatex (content : List Char) : List Char :=
  if content = [] then []
  else
    let e1 := extractPairsAux "```".data "CODE_BLOCK".data content.length 0 content
    let e2 := extractInlineAux '`' "CODE_BLOCK".data e1.1.length e1.2.length e1.1
    let m1 := extractPairsAux "$$".data "MATH_BLOCK".data e2.1.length 0 e2.1
    let m2 := extractInlineAux '$' "MATH_BLOCK".data m1.1.length m1.2.length m1.1
    let r1 := ruleBsPairAux "\\[".data "\\]".data "$$".data m2.1.length m2.1
    let r2 := ruleBsPairAux "\\(".data "\\)".data "$".data r1.length r1
    let r3 := ruleBracketAux r2.length r2
    let r4 := ruleBsWrappedAux r3.length r3
    let r5 := ruleArithAux r4.length none r4
    let r6 := ruleFactAux r5.length none r5
    let r7 := restoreBlocks "MATH_BLOCK".data (m1.2 ++ m2.2) 0 r6
    restoreBlocks "CODE_BLOCK".data (e1.2 ++ e2.2) 0 r7

/-- `processContent` (MessageContent.jsx lines 131–145). -/
def processContent (content : List Char) (isStreaming : Bool) : List Char :=
  if content = [] then []
  else
    if isStreaming then fixIncompleteMarkdown (wrapBareLatex content)
    else wrapBareLatex content

/-- The spec's `sanitize(raw, isStreaming)` is `processContent`. -/
def sanitize (raw : String) (isStreaming : Bool) : String :=
  String.mk (processContent raw.data isStreaming)

/-! # Theorems -/

theorem decodeCharsAux_fuel : ∀ (f1 : Nat) (bs : List Nat) (f2 : Nat),
    bs.length ≤ f1 → bs.length ≤ f2 → decodeCharsAux f1 bs = decodeCharsAux f2 bs := by
  intro f1
  induction f1 with
  | zero =>
    intro bs f2 h1 _
    have hb : bs = [] := List.length_eq_zero.mp (Nat.le_zero.mp h1)
    subst hb
    cases f2 <;> rfl
  | succ f ih =>
    intro bs f2 h1 h2
    cases bs with
    | nil => cases f2 <;> rfl
    | cons b rest =>
      cases f2 with
      | zero => simp at h2
      | succ g =>
        simp only [List.length_cons, Nat.succ_le_succ_iff] at h1 h2
        rw [decodeCharsAux, decodeCharsAux]
        cases hn : utf8SeqLen b with
        | none => rw [ih rest g h1 h2]
        | some n =>
          dsimp only
          by_cases hle : n ≤ rest.length + 1
          · rw [if_pos hle, if_pos hle]
            have hd1 : (rest.drop (n - 1)).length ≤ f := by
              simp [List.length_drop]; omega
            have hd2 : (rest.drop (n - 1)).length ≤ g := by
              simp [List.length_drop]; omega
            rw [ih (rest.drop (n - 1)) g hd1 hd2]
          · rw [if_neg hle, if_neg hle]

/-- The one-step unfolding of `decodeChars` on a nonempty byte list. -/
theorem decodeChars_cons (b : Nat) (rest : List Nat) :
    decodeChars (b :: rest) =
      match utf8SeqLen b with
      | none => ((Char.ofNat 0xFFFD) :: (decodeChars rest).1, (decodeChars rest).2)
      | some n =>
        if n ≤ rest.length + 1 then
          ((utf8CharOf (b :: rest.take (n - 1))) :: (decodeChars (rest.drop (n - 1))).1,
            (decodeChars (rest.drop (n - 1))).2)
        else ([], b :: rest) := by
  show decodeCharsAux (rest.length + 1) (b :: rest) = _
  rw [decodeCharsAux]
  cases hn : utf8SeqLen b with
  | none => rfl
  | some n =>
    dsimp only
    by_cases hle : n ≤ rest.length + 1
    · rw [if_pos hle, if_pos hle]
      rw [decodeCharsAux_fuel rest.length (rest.drop (n - 1)) (rest.drop (n - 1)).length
        (by simp [List.length_drop]) (Nat.le_refl _)]
      rfl
    · rw [if_neg hle, if_neg hle]

theorem decodeChars_append (bs1 bs2 : List Nat) :
    decodeChars (bs1 ++ bs2) =
      ((decodeChars bs1).1 ++ (decodeChars ((decodeChars bs1).2 ++ bs2)).1,
       (decodeChars ((decodeChars bs1).2 ++ bs2)).2) := by
  generalize hk : bs1.length = k
  induction k using Nat.strong_induction_on generalizing bs1 bs2 with
  | _ k ih =>
    cases bs1 with
    | nil => simp [decodeChars, decodeCharsAux]
    | cons b rest =>
      simp only [List.length_cons] at hk
      rw [decodeChars_cons b rest]
      cases hn : utf8SeqLen b with
      | none =>
        dsimp only
        simp only [List.cons_append]
        rw [decodeChars_cons b (rest ++ bs2), hn]
        dsimp only
        have := ih rest.length (by omega) rest bs2 rfl
        simp only [this]
      | some n =>
        dsimp only
        by_cases hle : n ≤ rest.length + 1
        · have hle' : n ≤ (rest ++ bs2).length + 1 := by
            simp [List.length_append]; omega
          have h1 : n - 1 ≤ rest.length := by omega
          rw [if_pos hle]
          simp only [List.cons_append]
          rw [decodeChars_cons b (rest ++ bs2), hn]
          dsimp only
          rw [if_pos hle']
          rw [List.take_append_of_le_length h1, List.drop_append_of_le_length h1]
          have := ih (rest.drop (n - 1)).length
            (by simp [List.length_drop]; omega) (rest.drop (n - 1)) bs2 rfl
          simp only [this]
        · rw [if_neg hle]
          simp

theorem splitLines_append (a b : List Char) :
    splitLines (a ++ b) =
      ((splitLines a).1 ++ (splitLines ((splitLines a).2 ++ b)).1,
       (splitLines ((splitLines a).2 ++ b)).2) := by
  induction a with
  | nil => simp [splitLines]
  | cons c t ih =>
    by_cases hc : c = '\n'
    · subst hc
      simp only [List.cons_append, splitLines, if_pos]
      simp [ih]
    · simp only [List.cons_append, splitLines, if_neg hc, List.append_eq]
      rw [ih]
      cases h : (splitLines t).1 with
      | nil =>
        simp only [h, List.nil_append]
        simp only [splitLines, if_neg hc, List.append_eq]
      | cons l ls =>
        simp [h]

theorem feedChunk_append (s : DecState) (c1 c2 : List Nat) :
    feedChunk s (c1 ++ c2) =
      ((feedChunk (feedChunk s c1).1 c2).1,
       (feedChunk s c1).2 ++ (feedChunk (feedChunk s c1).1 c2).2) := by
  simp only [feedChunk, ← List.append_assoc]
  rw [decodeChars_append (s.pend ++ c1) c2]
  dsimp only
  rw [← List.append_assoc]
  rw [splitLines_append (s.buf ++ (decodeChars (s.pend ++ c1)).1)]

theorem feedAll_cons_join (cs : List (List Nat)) :
    ∀ (s : DecState) (c : List Nat),
      feedAll s (c :: cs) =
        ((feedChunk s (c ++ cs.join)).1, (feedChunk s (c ++ cs.join)).2) := by
  induction cs with
  | nil => intro s c; simp [feedAll]
  | cons c2 cs ih =>
    intro s c
    rw [feedAll, ih]
    rw [show (c2 :: cs).join = c2 ++ cs.join from rfl]
    rw [feedChunk_append s c (c2 ++ cs.join)]

/-- Feeding the chunks one by one reassembles exactly the lines obtained
by feeding the whole byte sequence as a single chunk. -/
theorem emittedLines_split_invariant (chunks : List (List Nat)) :
    emittedLines chunks = emittedLines [chunks.join] := by
  cases chunks with
  | nil => simp [emittedLines, feedAll, feedChunk, initDecState, decodeChars, splitLines]
  | cons c cs =>
    simp only [emittedLines]
    rw [feedAll_cons_join]
    rw [show (c :: cs).join = c ++ cs.join from rfl]
    simp [feedAll]

theorem runV2_eq_processLines (chunks : List (List Nat)) :
    ∀ (s : DecState) (acc : String),
      (chunks.foldl (fun st c =>
        ((feedChunk st.1 c).1, processLinesV2 (feedChunk st.1 c).2 st.2)) (s, acc)).2 =
      processLinesV2 (feedAll s chunks).2 acc := by
  induction chunks with
  | nil => intro s acc; simp [feedAll, processLinesV2]
  | cons c cs ih =>
    intro s acc
    simp only [List.foldl_cons, feedAll]
    rw [ih]
    simp [processLinesV2, List.foldl_append]

/-- C1: for every byte sequence and every way of splitting it into
chunks, the frame-decoding loop reconstructs exactly the logical lines of
the single-chunk feed, hence the same delta sequence and the same
accumulated content; in particular the chunk split
`"dat"` / `"a: {"content":"He"` / `"llo"}\n\n"` yields the single delta
`"Hello"`. -/
theorem chunk_split_invariance :
    (∀ chunks : List (List Nat),
        emittedLines chunks = emittedLines [chunks.join] ∧
        deltasV2 chunks = deltasV2 [chunks.join] ∧
        runV2 chunks = runV2 [chunks.join]) ∧
    deltasV2 [asciiBytes "dat", asciiBytes "a: \x7b\"content\":\"He",
        asciiBytes "llo\"\x7d\n\n"] = ["Hello"] ∧
    runV2 [asciiBytes "dat", asciiBytes "a: \x7b\"content\":\"He",
        asciiBytes "llo\"\x7d\n\n"] = "Hello" := by
  refine ⟨fun chunks => ⟨emittedLines_split_invariant chunks, ?_, ?_⟩, by decide, by decide⟩
  · unfold deltasV2
    rw [emittedLines_split_invariant]
  · unfold runV2
    rw [runV2_eq_processLines, runV2_eq_processLines]
    have h := emittedLines_split_invariant chunks
    unfold emittedLines at h
    rw [h]

/-- C4 (counterexample): a stream whose final bytes form an unterminated
line is dropped, not emitted: the fragment stays in the buffer, no line
is processed and no delta is applied, contradicting the claim that the
fragment is emitted as a final logical line. -/
theorem trailing_fragment_cex :
    emittedLines [asciiBytes "data: \x7b\"content\":\"Hi\"\x7d"] = [] ∧
    (feedAll initDecState [asciiBytes "data: \x7b\"content\":\"Hi\"\x7d"]).1.buf =
      "data: \x7b\"content\":\"Hi\"\x7d".data ∧
    runV2 [asciiBytes "data: \x7b\"content\":\"Hi\"\x7d"] = "" := by decide

/-- C4 (amended): the loop processes exactly the line-break-terminated
lines of the byte stream; the trailing fragment is kept in the buffer and
is never emitted when the stream ends. -/
theorem trailing_fragment_discarded (chunks : List (List Nat)) :
    emittedLines chunks = (splitLines (decodeChars chunks.join).1).1 ∧
    (feedAll initDecState chunks).1.buf = (splitLines (decodeChars chunks.join).1).2 := by
  cases chunks with
  | nil =>
    constructor <;>
      simp [emittedLines, feedAll, initDecState, decodeChars, decodeCharsAux, splitLines]
  | cons c cs =>
    have h := feedAll_cons_join cs initDecState c
    rw [show (c :: cs).join = c ++ cs.join from rfl]
    constructor
    · unfold emittedLines
      rw [h]
      simp [feedChunk, initDecState]
    · rw [h]
      simp [feedChunk, initDecState]

/-- C3 (counterexample): a `[DONE]` sentinel line does not stop the V1
loop — a `token` delta on a later line of the same chunk is still
appended, so the content ends as `"X"` instead of staying empty. -/
theorem sentinel_no_stop_cex :
    runV1 [asciiBytes "data: [DONE]\ndata: \x7b\"token\":\"X\"\x7d\n"] = "X" := by decide

/-- C3 (amended): the sentinel line is skipped without stopping the loop;
a truthy finished-flag stops the processing of the remaining lines of the
current chunk only (the result does not depend on them); and deltas in
later chunks are still applied, as the concrete two-chunk run ending in
`"AC"` shows (the `"B"` delta after the finished line is dropped, the
`"C"` delta of the next chunk is appended). -/
theorem termination_amended :
    (∀ (line : List Char) (ls : List (List Char)) (content : String),
        v1IsData line = true → v1Payload line = "[DONE]".data →
        processLinesV1 (line :: ls) content = processLinesV1 ls content) ∧
    (∀ (line : List Char) (ls ls' : List (List Char)) (content : String),
        v1Finished line = true →
        processLinesV1 (line :: ls) content = processLinesV1 (line :: ls') content) ∧
    runV1 [asciiBytes
        "data: \x7b\"token\":\"A\",\"is_finished\":true\x7d\ndata: \x7b\"token\":\"B\"\x7d\n",
      asciiBytes "data: \x7b\"token\":\"C\"\x7d\n"] = "AC" := by
  refine ⟨?_, ?_, by decide⟩
  · intro line ls content hd hp
    have hne : ¬ jsTrim line = [] := by
      intro h
      rw [v1IsData, h] at hd
      exact absurd hd (by decide)
    rw [processLinesV1, if_neg hne, if_pos (by simp [hd, hp])]
  · intro line ls ls' content hf
    unfold v1Finished at hf
    cases hj : jsonParse (v1Payload line) with
    | none => rw [hj] at hf; simp at hf
    | some v =>
      rw [hj] at hf
      dsimp only at hf
      have hne : ¬ jsTrim line = [] := by
        intro h
        have hp : v1Payload line = [] := by
          simp [v1Payload, v1IsData, h]
        rw [hp] at hj
        rw [show jsonParse ([] : List Char) = none from rfl] at hj
        cases hj
      have hdone : ¬((v1IsData line && v1Payload line = "[DONE]".data) = true) := by
        intro hD
        rw [Bool.and_eq_true] at hD
        have hp : v1Payload line = "[DONE]".data := by
          have := hD.2
          simpa using this
        rw [hp] at hj
        rw [show jsonParse ("[DONE]".data) = none from rfl] at hj
        cases hj
      rw [processLinesV1, processLinesV1, if_neg hne, if_neg hdone, if_neg hne, if_neg hdone,
        hj]
      simp [hf]

/-- C3 (amended) at concrete inputs: the sentinel line is skipped with
the rest of the list still processed, and a finished line makes the
result independent of the rest of the chunk. -/
theorem termination_amended_witness :
    processLinesV1 ["data: [DONE]".data, "data: \x7b\"token\":\"Z\"\x7d".data] "" =
      processLinesV1 ["data: \x7b\"token\":\"Z\"\x7d".data] "" ∧
    processLinesV1 ["data: \x7b\"token\":\"A\",\"is_finished\":true\x7d".data,
        "data: \x7b\"token\":\"B\"\x7d".data] "" =
      processLinesV1 ["data: \x7b\"token\":\"A\",\"is_finished\":true\x7d".data] "" :=
  ⟨termination_amended.1 _ _ _ (by decide) (by decide),
   termination_amended.2.1 _ _ [] _ (by decide)⟩

/-- C5 (counterexample): the V1 loop reads only the `token` field and the
V2 loop only the `content` field — neither checks an ordered candidate
list, so a payload carrying its text under the other name produces no
delta at all. -/
theorem candidate_fields_cex :
    runV1 [asciiBytes "data: \x7b\"content\":\"Hi\"\x7d\n"] = "" ∧
    runV2 [asciiBytes "data: \x7b\"token\":\"Hi\"\x7d\n"] = "" := by decide

/-- C5 (amended): each loop variant extracts the incremental text from
exactly one fixed field name — `token` in the V1 loop and `content` in
the V2 loop; a payload carrying a non-empty string under that name yields
its delta, and the other candidate name is ignored. -/
theorem single_candidate_field (s : String) (h : s ≠ "") :
    deltaOfParsedV1 (.obj [("token", .str s)]) = some s ∧
    deltaOfParsedV1 (.obj [("content", .str s)]) = none ∧
    deltaOfParsedV2 (.obj [("content", .str s)]) = some s ∧
    deltaOfParsedV2 (.obj [("token", .str s)]) = none := by
  refine ⟨?_, ?_, ?_, ?_⟩ <;>
    simp [deltaOfParsedV1, deltaOfParsedV2, jsField, jsTruthy, jsToString, h, List.find?]

theorem single_candidate_field_witness :
    deltaOfParsedV1 (.obj [("token", .str "Hi")]) = some "Hi" ∧
    deltaOfParsedV1 (.obj [("content", .str "Hi")]) = none ∧
    deltaOfParsedV2 (.obj [("content", .str "Hi")]) = some "Hi" ∧
    deltaOfParsedV2 (.obj [("token", .str "Hi")]) = none :=
  single_candidate_field "Hi" (by decide)

/-- C6: a data line whose payload fails to decode is ignored — the
processing is total (never throws), the accumulated content is unchanged
by that line, and the remaining lines are processed exactly as if the
malformed line were absent. -/
theorem framing_noise_ignored (line : List Char) (ls : List (List Char)) (content : String)
    (hdata : v1IsData line = true)
    (hfail : jsonParse (v1Payload line) = none) :
    processLinesV1 (line :: ls) content = processLinesV1 ls content := by
  have hne : ¬ jsTrim line = [] := by
    intro h
    rw [v1IsData, h] at hdata
    exact absurd hdata (by decide)
  rw [processLinesV1, if_neg hne]
  by_cases hD : (v1IsData line && v1Payload line = "[DONE]".data) = true
  · rw [if_pos hD]
  · rw [if_neg hD, hfail]

theorem framing_noise_ignored_witness :
    processLinesV1 ["data: not-json".data, "data: \x7b\"token\":\"Y\"\x7d".data] "" =
      processLinesV1 ["data: \x7b\"token\":\"Y\"\x7d".data] "" :=
  framing_noise_ignored _ _ _ (by decide) (by rfl)

theorem setLastContent_append (xs : List ChatMsg) (a b : ChatMsg) (s : String) :
    setLastContent (xs ++ [a, b]) s = xs ++ [a, { b with content := s }] := by
  induction xs with
  | nil => rfl
  | cons x t ih =>
    obtain ⟨y, ts, hyt⟩ := List.exists_cons_of_ne_nil
      (show t ++ [a, b] ≠ [] by simp)
    simp only [List.cons_append]
    rw [hyt, show setLastContent (x :: y :: ts) s = x :: setLastContent (y :: ts) s from rfl,
      ← hyt, ih]

theorem fenceCount_cons_of_not (x : Char) (t : List Char)
    (h : ∀ t', ¬(x = '`' ∧ t = '`' :: '`' :: t')) :
    fenceCount (x :: t) = fenceCount t := by
  rw [fenceCount.eq_def]
  split
  · next t' heq =>
    exfalso
    injection heq with h1 h2
    exact h t' ⟨h1, h2⟩
  · rename_i a hd t2 hno heq
    injection heq with h1 h2
    rw [h2]
  · rename_i a heq
    exact absurd heq (by simp)

theorem fenceCount_append (xs : List Char) (c : Char) (ys : List Char) (hc : c ≠ '`') :
    fenceCount (xs ++ c :: ys) = fenceCount xs + fenceCount (c :: ys) := by
  induction xs using fenceCount.induct with
  | case1 t ih =>
    simp only [List.cons_append]
    rw [show fenceCount ('`' :: '`' :: '`' :: (t ++ c :: ys)) =
          fenceCount (t ++ c :: ys) + 1 from rfl,
      show fenceCount ('`' :: '`' :: '`' :: t) = fenceCount t + 1 from rfl, ih]
    omega
  | case2 x t hno ih =>
    simp only [List.cons_append]
    rw [fenceCount_cons_of_not x (t ++ c :: ys) ?hB, fenceCount_cons_of_not x t ?hA, ih]
    case hA =>
      intro t' hand
      exact hno t' hand.1 hand.2
    case hB =>
      intro t'' hand
      obtain ⟨hx, ht⟩ := hand
      cases t with
      | nil =>
        simp at ht
        exact hc ht.1
      | cons y1 t1 =>
        cases t1 with
        | nil =>
          simp at ht
          exact hc ht.2.1
        | cons y2 t2 =>
          simp at ht
          exact hno t2 hx (by rw [ht.1, ht.2.1])
  | case3 => simp [fenceCount]

/-- Appending a tail that does not start with a backtick adds the tail's
own fence count. -/
theorem fenceCount_append2 (xs ys : List Char) (hy : ys.head? ≠ some '`') :
    fenceCount (xs ++ ys) = fenceCount xs + fenceCount ys := by
  cases ys with
  | nil => simp [fenceCount]
  | cons c ys' =>
    refine fenceCount_append xs c ys' ?_
    intro hc
    exact hy (by rw [hc]; rfl)

theorem dollar2Count_cons_of_not (x : Char) (t : List Char)
    (h : ∀ t', ¬(x = '$' ∧ t = '$' :: t')) :
    dollar2Count (x :: t) = dollar2Count t := by
  rw [dollar2Count.eq_def]
  split
  · next t' heq =>
    exfalso
    injection heq with h1 h2
    exact h t' ⟨h1, h2⟩
  · rename_i a hd t2 hno heq
    injection heq with h1 h2
    rw [h2]
  · rename_i a heq
    exact absurd heq (by simp)

theorem dollar2Count_append (xs : List Char) (c : Char) (ys : List Char) (hc : c ≠ '$') :
    dollar2Count (xs ++ c :: ys) = dollar2Count xs + dollar2Count (c :: ys) := by
  induction xs using dollar2Count.induct with
  | case1 t ih =>
    simp only [List.cons_append]
    rw [show dollar2Count ('$' :: '$' :: (t ++ c :: ys)) =
          dollar2Count (t ++ c :: ys) + 1 from rfl,
      show dollar2Count ('$' :: '$' :: t) = dollar2Count t + 1 from rfl, ih]
    omega
  | case2 x t hno ih =>
    simp only [List.cons_append]
    rw [dollar2Count_cons_of_not x (t ++ c :: ys) ?hB, dollar2Count_cons_of_not x t ?hA, ih]
    case hA =>
      intro t' hand
      exact hno t' hand.1 hand.2
    case hB =>
      intro t'' hand
      obtain ⟨hx, ht⟩ := hand
      cases t with
      | nil =>
        simp at ht
        exact hc ht.1
      | cons y1 t1 =>
        simp at ht
        exact hno t1 hx (by rw [ht.1])
  | case3 => simp [dollar2Count]

theorem fence_parity_step (t tail : List Char) (h : fenceCount t % 2 = 1)
    (h2 : tail.head? ≠ some '`') (h3 : fenceCount tail % 2 = 1) :
    fenceCount (t ++ tail) % 2 = 0 := by
  rw [fenceCount_append2 t tail h2, Nat.add_mod, h, h3]

/-- C7 (counterexample): the input `` x`$``` `` has an odd number of
code-fence delimiters, yet `sanitize(·, true)` returns `` x`x``` `` whose
fence count is still odd: the normalization pass splits the backtick run
(and its restore step mangles the stored span), after which the repair
pass appends a lone backtick that completes a brand-new fence. -/
theorem fence_parity_cex :
    fenceCount "x`$```".data % 2 = 1 ∧
    sanitize "x`$```" true = "x`x```" ∧
    fenceCount (sanitize "x`$```" true).data % 2 = 1 :=
  ⟨by decide, by decide, by decide⟩

/-- C7 (amended): the parity guarantee holds for the repair pass taken by
itself — for every text with an odd number of code-fence delimiters,
`fixIncompleteMarkdown` returns a text with an even number (the full
`sanitize` first runs the normalization pass, which can change the fence
count, as the counterexample shows). -/
theorem fence_parity_amended (t : List Char) (h : fenceCount t % 2 = 1) :
    fenceCount (fixIncompleteMarkdown t) % 2 = 0 := by
  have ht : ¬ t = [] := by
    rintro rfl
    simp [fenceCount] at h
  rw [fixIncompleteMarkdown, if_neg ht]
  rw [if_pos (show fenceCount t % 2 ≠ 0 by omega)]
  dsimp only
  split <;> split <;> split <;>
    (try simp only [List.append_assoc]) <;>
    (refine fence_parity_step t _ h ?_ ?_ <;> decide)

theorem fence_parity_amended_witness :
    fenceCount (fixIncompleteMarkdown "```".data) % 2 = 0 :=
  fence_parity_amended ("```".data) (by decide)

/-- C8: the bare expression `5 \times 4 \times 3 = 60` is rewritten by
the normalization pass into the same expression wrapped in one pair of
inline-math delimiters; inside a fenced code block it is left exactly
unchanged. -/
theorem bare_arith_wrapped :
    sanitize "5 \\times 4 \\times 3 = 60" false = "$5 \\times 4 \\times 3 = 60$" ∧
    wrapBareLatex "5 \\times 4 \\times 3 = 60".data = "$5 \\times 4 \\times 3 = 60$".data ∧
    wrapBareLatex "```\n5 \\times 4 \\times 3 = 60\n```".data =
      "```\n5 \\times 4 \\times 3 = 60\n```".data :=
  ⟨by decide, by decide, by decide⟩

/-- C2 (counterexample): `raw = "$a$5 \times 6$b$"` has no partially-open
delimiters (the repair pass leaves it unchanged), yet
`sanitize(sanitize(raw, true), false) ≠ sanitize(raw, false)`: the first
pass creates `$a$$5 \times 6$$b$`, whose `$$ … $$` span is re-extracted on
the second pass and swallowed inside the surrounding inline-math span, so
its placeholder leaks into the final text. -/
theorem sanitize_idempotence_cex :
    fixIncompleteMarkdown "$a$5 \\times 6$b$".data = "$a$5 \\times 6$b$".data ∧
    sanitize "$a$5 \\times 6$b$" true = "$a$$5 \\times 6$$b$" ∧
    sanitize (sanitize "$a$5 \\times 6$b$" true) false = "$a__MATH_BLOCK_0__b$" ∧
    sanitize "$a$5 \\times 6$b$" false = "$a$$5 \\times 6$$b$" ∧
    sanitize (sanitize "$a$5 \\times 6$b$" true) false ≠ sanitize "$a$5 \\times 6$b$" false :=
  ⟨by decide, by decide, by decide, by decide, by decide⟩

/-- C2 (amended): the once-stable idempotence law holds exactly when the
normalization pass is idempotent on the raw text and its output is
repair-stable: under those hypotheses
`sanitize(sanitize(raw, true), false) = sanitize(raw, false)` (the
claim's no-partially-open-delimiters condition alone is not sufficient,
as the counterexample shows). -/
theorem sanitize_idempotent_of_stable (raw : String)
    (h1 : fixIncompleteMarkdown (wrapBareLatex raw.data) = wrapBareLatex raw.data)
    (h2 : wrapBareLatex (wrapBareLatex raw.data) = wrapBareLatex raw.data) :
    sanitize (sanitize raw true) false = sanitize raw false := by
  have key : processContent (processContent raw.data true) false =
      processContent raw.data false := by
    by_cases hr : raw.data = []
    · have e1 : processContent raw.data true = [] := by rw [processContent, if_pos hr]
      have e2 : processContent raw.data false = [] := by rw [processContent, if_pos hr]
      rw [e1, e2]
      rfl
    · have e1 : processContent raw.data true = wrapBareLatex raw.data := by
        simp [processContent, hr, h1]
      have e2 : processContent raw.data false = wrapBareLatex raw.data := by
        simp [processContent, hr]
      rw [e1, e2]
      by_cases hw : wrapBareLatex raw.data = []
      · rw [processContent, if_pos hw, hw]
      · simp [processContent, hw, h2]
  show String.mk (processContent (processContent raw.data true) false) =
    String.mk (processContent raw.data false)
  rw [key]

theorem sanitize_idempotent_of_stable_witness :
    sanitize (sanitize "hello" true) false = sanitize "hello" false :=
  sanitize_idempotent_of_stable "hello" (by decide) (by decide)

/-- C10 (counterexample): `"```\n$$\n```"` has balanced fences and one
`$$` occurrence, inside the fence — but `sanitize(·, true)` does not
append `$$`: the normalization pass's restore step rewrites the stored
fenced block's `$$` to `$` (ECMA `GetSubstitution`), so the repair pass
sees no unbalanced `$$` at all and instead appends a lone `$`. -/
theorem blockmath_count_cex :
    fenceCount "```\n$$\n```".data % 2 = 0 ∧
    dollar2Count "```\n$$\n```".data % 2 = 1 ∧
    dollar2Count (removePairs "```".data "```\n$$\n```".data) = 0 ∧
    sanitize "```\n$$\n```" true = "```\n$\n```$" ∧
    dollar2Count (sanitize "```\n$$\n```" true).data = 0 :=
  ⟨by decide, by decide, by decide, by decide, by decide⟩

/-- C10 (amended): the repair pass counts `$$` occurrences over the whole
text without excluding code-fence interiors, so for every input the
normalization pass leaves unchanged, with balanced code fences and an odd
total `$$` count (wherever those `$$` occur), `sanitize(·, true)` appends
a `$$` delimiter (possibly followed by a final `$` from the inline-math
check, and preceded by an inline-code backtick repair). -/
theorem blockmath_count_amended (input : String)
    (h1 : wrapBareLatex input.data = input.data)
    (h2 : fenceCount input.data % 2 = 0)
    (h3 : dollar2Count input.data % 2 = 1) :
    ∃ a b : List Char,
      (a = [] ∨ a = "`".data) ∧ (b = [] ∨ b = "$".data) ∧
      (sanitize input true).data = input.data ++ a ++ "$$".data ++ b := by
  have hne : ¬ input.data = [] := by
    rintro hnil
    rw [hnil] at h3
    simp [dollar2Count] at h3
  have hfix : (sanitize input true).data = fixIncompleteMarkdown input.data := by
    show processContent input.data true = _
    rw [processContent, if_neg hne, if_pos rfl, h1]
  rw [hfix]
  rw [fixIncompleteMarkdown, if_neg hne]
  rw [if_neg (show ¬ fenceCount input.data % 2 ≠ 0 by omega)]
  dsimp only
  by_cases htick : tickCount (removePairs "```".data input.data) % 2 ≠ 0
  · rw [if_pos htick]
    have hd : dollar2Count (input.data ++ "`".data) = dollar2Count input.data := by
      rw [show ("`".data : List Char) = '`' :: [] from rfl,
        dollar2Count_append input.data '`' [] (by decide)]
      rfl
    rw [if_pos (show dollar2Count (input.data ++ "`".data) % 2 ≠ 0 by rw [hd]; omega)]
    by_cases hlone : loneDollarCount
        (removePairs "$$".data ((input.data ++ "`".data) ++ "$$".data)) % 2 ≠ 0
    · rw [if_pos hlone]
      exact ⟨"`".data, "$".data, Or.inr rfl, Or.inr rfl, by simp [List.append_assoc]⟩
    · rw [if_neg hlone]
      exact ⟨"`".data, [], Or.inr rfl, Or.inl rfl, by simp [List.append_assoc]⟩
  · rw [if_neg htick]
    rw [if_pos (show dollar2Count input.data % 2 ≠ 0 by omega)]
    by_cases hlone : loneDollarCount
        (removePairs "$$".data (input.data ++ "$$".data)) % 2 ≠ 0
    · rw [if_pos hlone]
      exact ⟨[], "$".data, Or.inl rfl, Or.inr rfl, by simp [List.append_assoc]⟩
    · rw [if_neg hlone]
      exact ⟨[], [], Or.inl rfl, Or.inl rfl, by simp [List.append_assoc]⟩

theorem blockmath_count_amended_witness :
    ∃ a b : List Char,
      (a = [] ∨ a = "`".data) ∧ (b = [] ∨ b = "$".data) ∧
      (sanitize "a$$b" true).data = "a$$b".data ++ a ++ "$$".data ++ b :=
  blockmath_count_amended "a$$b" (by decide) (by decide) (by decide)

/-- C9: a transport failure replaces the assistant message's content with
the fixed failure notice and the turn ends (streaming flag cleared); an
abort leaves every message exactly as last applied, writes no failure
string, and also ends the turn. -/
theorem transport_failure_vs_abort (prior : List ChatMsg) (u acc : String) :
    finishTurn (prior ++ [⟨"user", u⟩, ⟨"assistant", acc⟩]) TurnEnd.aborted =
      (prior ++ [⟨"user", u⟩, ⟨"assistant", acc⟩], false) ∧
    finishTurn (prior ++ [⟨"user", u⟩, ⟨"assistant", acc⟩]) TurnEnd.failed =
      (prior ++ [⟨"user", u⟩, ⟨"assistant", failNotice⟩], false) ∧
    failNotice = "Sorry, something wrong happen. Please try again" := by
  refine ⟨rfl, ?_, rfl⟩
  show (setLastContent _ failNotice, false) = _
  rw [setLastContent_append]

end LLMIS
